import Mathlib

/-!
Verification of the retrieval core of `course.py` (course_recommender_nosql).

The Python program fetches arXiv paper metadata documents from MongoDB,
derives per-document searchable texts and sorted distinct filter values,
filters the documents by year / submitter / category, and ranks the
filtered candidates against a free-text query with rapidfuzz
(`process.extract` with the `fuzz.partial_ratio` scorer).

Documents are Python dicts whose fields may be absent (`doc.get(...)`),
so every optional field is embedded as an `Option`.  The rapidfuzz
library functions are external to the repository; they are modelled from
the specification's contract and are marked as such below.
-/

namespace CourseRec

/-- One paper-metadata document, with exactly the fields projected by
`fetch_documents` in `course.py`.  Fields accessed with `doc.get` in the
source may be absent and are embedded as `Option`. -/
structure Document where
  id : Nat
  title : Option String
  abstract : Option String
  categories : Option (List String)
  update_date : Option String
  submitter : Option String
  comments : Option String
  journal_ref : Option String
  authors : Option String
  link : Option String
deriving DecidableEq

/-- The three sidebar selections (`selected_update_date`,
`selected_submitter`, `selected_category`), each either the sentinel
"All" or a concrete value. -/
structure PredicateSet where
  year : String
  submitter : String
  category : String
deriving DecidableEq

/-- The predicate set with every field unconstrained. -/
def allPredicates : PredicateSet := ⟨"All", "All", "All"⟩

/-- Python `s.startswith(t)`: `t` is a prefix of the character sequence
of `s`. -/
def pyStartsWith (s t : String) : Bool := decide (t.data <+: s.data)

/-- Python `s[:n]`: the first `n` characters of `s`. -/
def pyTake (s : String) (n : Nat) : String := String.mk (s.data.take n)

/-- The searchable text built for one document at line 37 of `course.py`:
`f"{doc.get('title', '')} {doc.get('abstract', '')} {' '.join(doc.get('categories', []))}"`. -/
def searchableText (d : Document) : String :=
  d.title.getD "" ++ " " ++ d.abstract.getD "" ++ " " ++
    String.intercalate " " (d.categories.getD [])

/-- The `corpus` list built by the loop at lines 36-38 of `course.py`:
one searchable text per document, positionally. -/
def corpusOf (documents : List Document) : List String :=
  documents.map searchableText

/-- The distinct submitter values
(`sorted(set(doc.get("submitter", "Unknown") for doc in documents if doc.get("submitter")))`,
line 28): submitters that are present and non-empty, deduplicated and
sorted ascending. -/
def submitters (documents : List Document) : List String :=
  List.insertionSort (· ≤ ·)
    (documents.filterMap (fun d =>
      match d.submitter with
      | some s => if s = "" then none else some s
      | none => none)).dedup

/-- The distinct category values
(`sorted(set(cat for doc in documents for cat in doc.get("categories", [])))`,
line 29): all category entries flattened, deduplicated, sorted ascending. -/
def categories (documents : List Document) : List String :=
  List.insertionSort (· ≤ ·)
    (documents.flatMap (fun d => d.categories.getD [])).dedup

/-- The distinct year values
(`sorted(set(doc.get("update_date", "Unknown")[:4] for doc in documents if doc.get("update_date")))`,
line 30): first four characters of each present non-empty `update_date`,
deduplicated, sorted ascending. -/
def update_dates (documents : List Document) : List String :=
  List.insertionSort (· ≤ ·)
    (documents.filterMap (fun d =>
      match d.update_date with
      | some s => if s = "" then none else some (pyTake s 4)
      | none => none)).dedup

/-- Python `s.lower()` viewed as a character sequence: every character
lowercased. -/
def lowerChars (s : String) : List Char := s.data.map Char.toLower

/-- Length of the longest common prefix of two character lists. -/
def commonPrefixLen : List Char → List Char → Nat
  | a :: as, b :: bs => if a = b then commonPrefixLen as bs + 1 else 0
  | _, _ => 0

/-- The longest match of a prefix of `q` starting anywhere inside `t`. -/
def bestWindow (q t : List Char) : Nat :=
  (t.tails.map (commonPrefixLen q)).foldr max 0

/-- Modelled from the spec: the `fuzz.partial_ratio` similarity scorer.
rapidfuzz is an external library whose code is not part of this
repository; the spec fixes only the contract (score in [0, 100]; 100 iff
the query, case-insensitively, is a literal substring of the text; 0 on
an empty text for a non-empty query; the exact formula is an
implementation choice).  This model returns 100 exactly on a
case-insensitive substring hit and otherwise a partial-match value
capped at 99. -/
def partialRatioScore (query text : String) : Nat :=
  if lowerChars query <:+: lowerChars text then 100
  else
    min 99 (100 * bestWindow (lowerChars query) (lowerChars text) /
      max 1 (lowerChars query).length)

/-- Scores every choice against the query, carrying the original
position, mirroring the `(choice, score, index)` triples returned by
rapidfuzz `process.extract`. -/
def scoreList (query : String) : List String → Nat → List (String × Nat × Nat)
  | [], _ => []
  | c :: cs, i => (c, partialRatioScore query c, i) :: scoreList query cs (i + 1)

/-- Stable descending insertion: a new entry goes in front of the first
entry whose score is not larger, so earlier-scored entries win ties. -/
def insertRanked (a : String × Nat × Nat) :
    List (String × Nat × Nat) → List (String × Nat × Nat)
  | [] => [a]
  | b :: t => if b.2.1 ≤ a.2.1 then a :: b :: t else b :: insertRanked a t

/-- Stable sort by descending score (ties keep original order). -/
def sortRanked : List (String × Nat × Nat) → List (String × Nat × Nat)
  | [] => []
  | a :: t => insertRanked a (sortRanked t)

/-- Modelled from the spec: rapidfuzz
`process.extract(query, choices, scorer=fuzz.partial_ratio, limit=limit)`.
The library code is not part of this repository; the spec fixes the
contract: score each choice, return the `limit` highest-scoring
`(choice, score, index)` triples sorted by descending score with ties
resolved by original candidate order. -/
def extract (query : String) (choices : List String) (limit : Nat) :
    List (String × Nat × Nat) :=
  (sortRanked (scoreList query choices 0)).take limit

/-- Python `[documents[result[2]] for result in results]`: looks every
result index up in `documents`; `none` models the `IndexError` raised on
an out-of-range index. -/
def lookupAll (documents : List Document) :
    List (String × Nat × Nat) → Option (List Document)
  | [] => some []
  | r :: rs =>
    match documents[r.2.2]?, lookupAll documents rs with
    | some d, some ds => some (d :: ds)
    | _, _ => none

/-- `recommend_documents` (lines 44-47 of `course.py`). -/
def recommend_documents (query : String) (corpus : List String)
    (documents : List Document) (limit : Nat) : Option (List Document) :=
  lookupAll documents (extract query corpus limit)

/-- The per-document filter condition of the list comprehension at lines
75-80 of `course.py`. -/
def passesFilter (p : PredicateSet) (d : Document) : Bool :=
  (decide (p.year = "All") || pyStartsWith (d.update_date.getD "") p.year) &&
  (decide (p.submitter = "All") || decide (d.submitter = some p.submitter)) &&
  (decide (p.category = "All") || decide (p.category ∈ d.categories.getD []))

/-- `filtered_documents` (lines 75-80 of `course.py`). -/
def filtered_documents (documents : List Document) (p : PredicateSet) :
    List Document :=
  documents.filter (passesFilter p)

/-- `corpus_filtered` (line 86 of `course.py`):
`[corpus[i] for i, doc in enumerate(documents) if doc in filtered_documents]`.
Each document is paired with its corpus text by position and retained
when it is a member (Python `in`, equality-based) of the filtered list. -/
def corpus_filtered (documents : List Document) (p : PredicateSet) :
    List String :=
  (((corpusOf documents).zip documents).filter
    (fun td => decide (td.2 ∈ filtered_documents documents p))).map Prod.fst

/-- The end-to-end query orchestration of lines 83-87 of `course.py`:
an empty query is falsy, so no ranking runs and no results are produced;
otherwise the filtered corpus and documents are ranked. -/
def search (documents : List Document) (p : PredicateSet) (query : String)
    (limit : Nat) : Option (List Document) :=
  if query = "" then some []
  else recommend_documents query (corpus_filtered documents p)
    (filtered_documents documents p) limit

/-- `st.session_state.selected_courses.append(rec)` (line 98 of
`course.py`): unconditional append at the end. -/
def append_selection (selected_courses : List Document) (d : Document) :
    List Document :=
  selected_courses ++ [d]

/-- `a` ranks strictly before `b`: higher score, or equal score and an
earlier original candidate position. -/
def rankBefore (a b : String × Nat × Nat) : Prop :=
  b.2.1 < a.2.1 ∨ (a.2.1 = b.2.1 ∧ a.2.2 < b.2.2)

instance : DecidableRel rankBefore := fun a b => by
  unfold rankBefore; infer_instance

instance : IsAntisymm (String × Nat × Nat) rankBefore where
  antisymm a b h₁ h₂ := by
    rcases h₁ with h₁ | ⟨h₁, h₁i⟩ <;> rcases h₂ with h₂ | ⟨h₂, h₂i⟩ <;> omega

/-- `l` is a valid stable ranking of the scored candidates: a
permutation of the scored triples, pairwise ordered by descending score
with ties in original candidate order. -/
def stableRanking (query : String) (choices : List String)
    (l : List (String × Nat × Nat)) : Prop :=
  l.Perm (scoreList query choices 0) ∧ l.Pairwise rankBefore

/-- A document carrying only a title, used in concrete evaluations. -/
def docT : Document :=
  ⟨0, some "abc", none, none, none, none, none, none, none, none⟩

/-- A document with every optional field absent, used in concrete
evaluations. -/
def docN : Document :=
  ⟨1, none, none, none, none, none, none, none, none, none⟩

/-- A fully populated document, used in concrete evaluations. -/
def docU : Document :=
  ⟨2, some "Quantum Computing Basics", some "intro to qubits",
    some ["quant-ph"], some "2020-05-01", some "alice", none, none,
    some "A. Author", some "http"⟩

/-- A predicate set constraining only the year. -/
def pYear2020 : PredicateSet := ⟨"2020", "All", "All"⟩

theorem corpus_filtered_eq_aux (p : PredicateSet) (docs : List Document) :
    ∀ l : List Document, (∀ d, d ∈ l → d ∈ docs) →
      (((l.map searchableText).zip l).filter
        (fun td => decide (td.2 ∈ filtered_documents docs p))).map Prod.fst
      = (l.filter (passesFilter p)).map searchableText := by
  intro l
  induction l with
  | nil => intro _; rfl
  | cons d t ih =>
    intro h
    have hd : d ∈ docs := h d (List.mem_cons_self d t)
    have ht : ∀ x, x ∈ t → x ∈ docs := fun x hx => h x (List.mem_cons_of_mem d hx)
    have hmem : (d ∈ filtered_documents docs p) ↔ passesFilter p d = true := by
      simp [filtered_documents, List.mem_filter, hd]
    rcases hp : passesFilter p d with _ | _
    · have hc : decide (d ∈ filtered_documents docs p) = false := by
        simp [hmem, hp]
      simp [List.filter_cons, hc, hp, ih ht]
    · have hc : decide (d ∈ filtered_documents docs p) = true := by
        simp [hmem, hp]
      simp [List.filter_cons, hc, hp, ih ht]

theorem corpus_filtered_eq (docs : List Document) (p : PredicateSet) :
    corpus_filtered docs p = (filtered_documents docs p).map searchableText :=
  corpus_filtered_eq_aux p docs docs (fun _ h => h)

/-- C1: for every corpus snapshot and predicate set, the filtered texts
correspond positionally to the filtered documents: the lists have the
same length and, at every index, the filtered text is the searchable
text derived from the filtered document at the same index. -/
theorem corpusFiltered_aligned (docs : List Document) (p : PredicateSet)
    (j : Nat) :
    (corpus_filtered docs p).length = (filtered_documents docs p).length ∧
    (corpus_filtered docs p)[j]? =
      ((filtered_documents docs p)[j]?).map searchableText := by
  rw [corpus_filtered_eq]
  constructor
  · exact List.length_map _ _
  · simp

/-- C5: filtering with all three predicate fields set to "All" returns
the input unchanged, and for every predicate set the filter output is a
subsequence of the input (original relative order preserved). -/
theorem filter_all_identity_sublist (docs : List Document) (p : PredicateSet) :
    filtered_documents docs allPredicates = docs ∧
    (filtered_documents docs p).Sublist docs := by
  constructor
  · apply List.filter_eq_self.mpr
    intro d _
    simp [passesFilter, allPredicates]
  · exact List.filter_sublist _

/-- C6: searching with an empty query performs no ranking and returns an
empty result, regardless of corpus contents, predicate set and limit. -/
theorem empty_query_empty_result (docs : List Document) (p : PredicateSet)
    (limit : Nat) :
    search docs p "" limit = some [] := by
  simp [search]

/-- C7: the i-th searchable text is
`title ++ " " ++ abstract ++ " " ++ space-joined categories` of the i-th
document, in that order, with absent fields contributing the empty
string (or empty join). -/
theorem searchableText_formula (docs : List Document) (j : Nat) :
    (corpusOf docs).length = docs.length ∧
    (corpusOf docs)[j]? = docs[j]?.map (fun d =>
      d.title.getD "" ++ " " ++ d.abstract.getD "" ++ " " ++
        String.intercalate " " (d.categories.getD [])) := by
  constructor
  · exact List.length_map _ _
  · simp [corpusOf]
    rfl

/-- C9: appendSelection appends at the end unconditionally, and two
appends of the same document to the empty selection give a selection of
length 2 holding that document twice. -/
theorem append_selection_unconditional :
    (∀ (sel : List Document) (d : Document),
      append_selection sel d = sel ++ [d] ∧
      (append_selection sel d).length = sel.length + 1) ∧
    (∀ d : Document,
      append_selection (append_selection [] d) d = [d, d] ∧
      (append_selection (append_selection [] d) d).length = 2 ∧
      (append_selection (append_selection [] d) d).count d = 2) := by
  refine ⟨fun sel d => ⟨rfl, by simp [append_selection]⟩,
    fun d => ⟨rfl, rfl, ?_⟩⟩
  simp [append_selection, List.count_cons]

theorem pyTake_ne_empty (s : String) (h : s ≠ "") : pyTake s 4 ≠ "" := by
  rcases s with ⟨data⟩
  cases data with
  | nil => exact absurd rfl h
  | cons c cs =>
    intro hcontra
    have := congrArg String.data hcontra
    simp [pyTake] at this

theorem mem_submitters (docs : List Document) (s : String) :
    s ∈ submitters docs ↔ ∃ d ∈ docs, d.submitter = some s ∧ s ≠ "" := by
  unfold submitters
  rw [(List.perm_insertionSort _ _).mem_iff, List.mem_dedup, List.mem_filterMap]
  constructor
  · rintro ⟨d, hd, hf⟩
    rcases hsub : d.submitter with _ | s'
    · simp [hsub] at hf
    · by_cases he : s' = ""
      · simp [hsub, he] at hf
      · simp [hsub, he] at hf
        exact ⟨d, hd, by rw [hsub, hf], hf ▸ he⟩
  · rintro ⟨d, hd, hsub, hne⟩
    exact ⟨d, hd, by simp [hsub, hne]⟩

theorem mem_categories (docs : List Document) (c : String) :
    c ∈ categories docs ↔ ∃ d ∈ docs, c ∈ d.categories.getD [] := by
  unfold categories
  rw [(List.perm_insertionSort _ _).mem_iff, List.mem_dedup, List.mem_flatMap]

theorem mem_update_dates (docs : List Document) (y : String) :
    y ∈ update_dates docs ↔
      ∃ d ∈ docs, ∃ s, d.update_date = some s ∧ s ≠ "" ∧ y = pyTake s 4 := by
  unfold update_dates
  rw [(List.perm_insertionSort _ _).mem_iff, List.mem_dedup, List.mem_filterMap]
  constructor
  · rintro ⟨d, hd, hf⟩
    rcases hup : d.update_date with _ | s'
    · simp [hup] at hf
    · by_cases he : s' = ""
      · simp [hup, he] at hf
      · simp [hup, he] at hf
        exact ⟨d, hd, s', hup, he, hf.symm⟩
  · rintro ⟨d, hd, s', hup, hne, hy⟩
    exact ⟨d, hd, by simp [hup, hne, hy]⟩

theorem update_dates_ne_empty (docs : List Document) :
    ∀ y ∈ update_dates docs, y ≠ "" := by
  intro y hy
  rcases (mem_update_dates docs y).mp hy with ⟨d, _, s, _, hne, htake⟩
  exact htake ▸ pyTake_ne_empty s hne

/-- C8: the corpus builder's distinct-value sets: present non-empty
submitters, flattened category entries, and first-4-character year
prefixes of present non-empty update dates; each collection is
deduplicated and sorted ascending. -/
theorem distinct_values_sorted_dedup (docs : List Document) :
    ((submitters docs).Sorted (· ≤ ·) ∧ (submitters docs).Nodup ∧
      ∀ s, s ∈ submitters docs ↔
        ∃ d ∈ docs, d.submitter = some s ∧ s ≠ "") ∧
    ((categories docs).Sorted (· ≤ ·) ∧ (categories docs).Nodup ∧
      ∀ c, c ∈ categories docs ↔ ∃ d ∈ docs, c ∈ d.categories.getD []) ∧
    ((update_dates docs).Sorted (· ≤ ·) ∧ (update_dates docs).Nodup ∧
      ∀ y, y ∈ update_dates docs ↔
        ∃ d ∈ docs, ∃ s, d.update_date = some s ∧ s ≠ "" ∧
          y = pyTake s 4) := by
  refine ⟨⟨List.sorted_insertionSort _ _,
      ((List.perm_insertionSort _ _).nodup_iff).mpr (List.nodup_dedup _),
      mem_submitters docs⟩,
    ⟨List.sorted_insertionSort _ _,
      ((List.perm_insertionSort _ _).nodup_iff).mpr (List.nodup_dedup _),
      mem_categories docs⟩,
    ⟨List.sorted_insertionSort _ _,
      ((List.perm_insertionSort _ _).nodup_iff).mpr (List.nodup_dedup _),
      mem_update_dates docs⟩⟩

/-- C2: a document passes the filter iff (year is "All" or its
update date starts with the selected year) and (submitter is "All" or
equal) and (category is "All" or a member of its categories); a value
drawn from the distinct year set is never empty; and a document whose
field is absent (or whose categories are empty) never satisfies the
corresponding concrete (non-"All") constraint, so it is excluded. -/
theorem filter_semantics (docs : List Document) (p : PredicateSet)
    (d : Document) :
    (d ∈ filtered_documents docs p ↔ d ∈ docs ∧
      (p.year = "All" ∨ pyStartsWith (d.update_date.getD "") p.year = true) ∧
      (p.submitter = "All" ∨ d.submitter = some p.submitter) ∧
      (p.category = "All" ∨ p.category ∈ d.categories.getD [])) ∧
    (∀ y ∈ update_dates docs, y ≠ "") ∧
    (p.year ≠ "All" → p.year ∈ update_dates docs → d.update_date = none →
      d ∉ filtered_documents docs p) ∧
    (p.submitter ≠ "All" → d.submitter = none →
      d ∉ filtered_documents docs p) ∧
    (p.category ≠ "All" → d.categories.getD [] = [] →
      d ∉ filtered_documents docs p) := by
  have hiff : d ∈ filtered_documents docs p ↔ d ∈ docs ∧
      (p.year = "All" ∨ pyStartsWith (d.update_date.getD "") p.year = true) ∧
      (p.submitter = "All" ∨ d.submitter = some p.submitter) ∧
      (p.category = "All" ∨ p.category ∈ d.categories.getD []) := by
    simp only [filtered_documents, List.mem_filter, passesFilter,
      Bool.and_eq_true, Bool.or_eq_true, decide_eq_true_eq]
    tauto
  refine ⟨hiff, update_dates_ne_empty docs, ?_, ?_, ?_⟩
  · intro hA hy hnone hmem
    rcases (hiff.mp hmem).2.1 with h | h
    · exact hA h
    · rw [hnone] at h
      have hpre : p.year.data <+: ([] : List Char) := by
        simpa [pyStartsWith] using h
      have : p.year = "" := by
        have hd : p.year.data = [] := List.eq_nil_of_prefix_nil hpre
        rcases hy' : p.year with ⟨data⟩
        rw [hy'] at hd
        simp at hd
        rw [hd]
      exact update_dates_ne_empty docs p.year hy this
  · intro hA hnone hmem
    rcases (hiff.mp hmem).2.2.1 with h | h
    · exact hA h
    · rw [hnone] at h
      exact Option.noConfusion h
  · intro hA hempty hmem
    rcases (hiff.mp hmem).2.2.2 with h | h
    · exact hA h
    · rw [hempty] at h
      exact List.not_mem_nil _ h

/-- Witness for C2: the all-fields-absent document is excluded by a
concrete category constraint. -/
theorem filter_semantics_witness :
    (PredicateSet.category ⟨"All", "All", "quant-ph"⟩ ≠ "All") ∧
    docN.categories.getD [] = [] ∧
    docN ∉ filtered_documents [docU, docN] ⟨"All", "All", "quant-ph"⟩ :=
  ⟨by decide, rfl,
    (filter_semantics [docU, docN] ⟨"All", "All", "quant-ph"⟩ docN).2.2.2.2
      (by decide) rfl⟩

theorem insertRanked_length (a : String × Nat × Nat)
    (l : List (String × Nat × Nat)) :
    (insertRanked a l).length = l.length + 1 := by
  induction l with
  | nil => rfl
  | cons b t ih => by_cases h : b.2.1 ≤ a.2.1 <;> simp [insertRanked, h, ih]

theorem sortRanked_length (l : List (String × Nat × Nat)) :
    (sortRanked l).length = l.length := by
  induction l with
  | nil => rfl
  | cons a t ih => simp [sortRanked, insertRanked_length, ih]

theorem scoreList_length (q : String) (cs : List String) (i : Nat) :
    (scoreList q cs i).length = cs.length := by
  induction cs generalizing i with
  | nil => rfl
  | cons c t ih => simp [scoreList, ih]

theorem insertRanked_perm (a : String × Nat × Nat)
    (l : List (String × Nat × Nat)) :
    (insertRanked a l).Perm (a :: l) := by
  induction l with
  | nil => exact List.Perm.refl _
  | cons b t ih =>
    by_cases h : b.2.1 ≤ a.2.1
    · simp [insertRanked, h]
    · rw [insertRanked, if_neg h]
      exact (ih.cons b).trans (List.Perm.swap a b t)

theorem sortRanked_perm (l : List (String × Nat × Nat)) :
    (sortRanked l).Perm l := by
  induction l with
  | nil => exact List.Perm.refl _
  | cons a t ih => exact (insertRanked_perm a (sortRanked t)).trans (ih.cons a)

theorem rankBefore_of (a b : String × Nat × Nat) (hs : b.2.1 ≤ a.2.1)
    (hi : a.2.2 < b.2.2) : rankBefore a b := by
  rcases Nat.lt_or_ge b.2.1 a.2.1 with h | h
  · exact Or.inl h
  · exact Or.inr ⟨Nat.le_antisymm h hs, hi⟩

theorem insertRanked_pairwise (a : String × Nat × Nat)
    (l : List (String × Nat × Nat)) (hl : l.Pairwise rankBefore)
    (ha : ∀ b ∈ l, a.2.2 < b.2.2) :
    (insertRanked a l).Pairwise rankBefore := by
  induction l with
  | nil => simp [insertRanked]
  | cons b t ih =>
    rcases List.pairwise_cons.mp hl with ⟨hbt, htp⟩
    by_cases h : b.2.1 ≤ a.2.1
    · rw [insertRanked, if_pos h]
      refine List.pairwise_cons.mpr ⟨?_, hl⟩
      intro c hc
      rcases List.mem_cons.mp hc with rfl | hc'
      · exact rankBefore_of a c h (ha c (List.mem_cons_self _ _))
      · have hbc := hbt c hc'
        have hcs : c.2.1 ≤ a.2.1 := by
          rcases hbc with h' | ⟨h', _⟩ <;> omega
        exact rankBefore_of a c hcs (ha c (List.mem_cons_of_mem b hc'))
    · rw [insertRanked, if_neg h]
      refine List.pairwise_cons.mpr
        ⟨?_, ih htp (fun x hx => ha x (List.mem_cons_of_mem b hx))⟩
      intro c hc
      have hc2 : c = a ∨ c ∈ t := by
        simpa using (insertRanked_perm a t).mem_iff.mp hc
      rcases hc2 with rfl | hc'
      · exact Or.inl (Nat.lt_of_not_le h)
      · exact hbt c hc'

theorem scoreList_idx_ge (q : String) (cs : List String) :
    ∀ i, ∀ x ∈ scoreList q cs i, i ≤ x.2.2 := by
  induction cs with
  | nil => intro i x hx; simp [scoreList] at hx
  | cons c t ih =>
    intro i x hx
    rcases List.mem_cons.mp hx with rfl | hx'
    · exact Nat.le_refl _
    · exact Nat.le_of_succ_le (ih (i + 1) x hx')

theorem scoreList_pairwise_idx (q : String) (cs : List String) (i : Nat) :
    (scoreList q cs i).Pairwise (fun a b => a.2.2 < b.2.2) := by
  induction cs generalizing i with
  | nil => exact List.Pairwise.nil
  | cons c t ih =>
    refine List.pairwise_cons.mpr ⟨?_, ih (i + 1)⟩
    intro b hb
    exact Nat.lt_of_succ_le (scoreList_idx_ge q t (i + 1) b hb)

theorem sortRanked_pairwise (l : List (String × Nat × Nat))
    (h : l.Pairwise (fun a b => a.2.2 < b.2.2)) :
    (sortRanked l).Pairwise rankBefore := by
  induction l with
  | nil => exact List.Pairwise.nil
  | cons a t ih =>
    rcases List.pairwise_cons.mp h with ⟨hat, htp⟩
    exact insertRanked_pairwise a (sortRanked t) (ih htp)
      (fun b hb => hat b ((sortRanked_perm t).mem_iff.mp hb))

theorem scoreList_idx_lt (q : String) (cs : List String) :
    ∀ i, ∀ x ∈ scoreList q cs i, x.2.2 < i + cs.length := by
  induction cs with
  | nil => intro i x hx; simp [scoreList] at hx
  | cons c t ih =>
    intro i x hx
    rcases List.mem_cons.mp hx with rfl | hx'
    · simp
    · have := ih (i + 1) x hx'
      simp only [List.length_cons]
      omega

theorem lookupAll_length (documents : List Document)
    (rs : List (String × Nat × Nat))
    (h : ∀ r ∈ rs, r.2.2 < documents.length) :
    ∃ l, lookupAll documents rs = some l ∧ l.length = rs.length := by
  induction rs with
  | nil => exact ⟨[], rfl, rfl⟩
  | cons r t ih =>
    rcases ih (fun x hx => h x (List.mem_cons_of_mem r hx)) with ⟨l, hl, hlen⟩
    have hr : r.2.2 < documents.length := h r (List.mem_cons_self r t)
    have hd : documents[r.2.2]? = some documents[r.2.2] :=
      List.getElem?_eq_getElem hr
    exact ⟨documents[r.2.2] :: l, by simp [lookupAll, hd, hl], by simp [hlen]⟩

/-- C3: the ranker returns exactly `min limit candidateCount` results,
pairwise in descending score order with equal-score candidates in their
original candidate order; ranking an empty candidate set returns an
empty result rather than an error, and whenever the candidate texts are
covered by the document list the whole ranked lookup succeeds with
`min limit candidateCount` documents. -/
theorem rank_length_sorted_stable (q : String) (choices : List String)
    (docs : List Document) (limit : Nat) :
    (extract q choices limit).length = min limit choices.length ∧
    (extract q choices limit).Pairwise (fun x y => y.2.1 ≤ x.2.1) ∧
    (extract q choices limit).Pairwise rankBefore ∧
    recommend_documents q [] docs limit = some [] ∧
    (choices.length ≤ docs.length →
      ∃ l, recommend_documents q choices docs limit = some l ∧
        l.length = min limit choices.length) := by
  have hsorted : (sortRanked (scoreList q choices 0)).Pairwise rankBefore :=
    sortRanked_pairwise _ (scoreList_pairwise_idx q choices 0)
  have hpw : (extract q choices limit).Pairwise rankBefore :=
    List.Pairwise.sublist (List.take_sublist _ _) hsorted
  have hlen : (extract q choices limit).length = min limit choices.length := by
    simp [extract, List.length_take, sortRanked_length, scoreList_length]
  refine ⟨hlen, List.Pairwise.imp ?_ hpw, hpw,
    by simp [recommend_documents, extract, scoreList, sortRanked, lookupAll],
    ?_⟩
  · intro a b hab
    rcases hab with h | ⟨h, _⟩
    · exact Nat.le_of_lt h
    · exact Nat.le_of_eq h.symm
  · intro hle
    have hidx : ∀ r ∈ extract q choices limit, r.2.2 < docs.length := by
      intro r hr
      have hr1 : r ∈ sortRanked (scoreList q choices 0) :=
        (List.take_sublist _ _).subset hr
      have hr2 : r ∈ scoreList q choices 0 :=
        (sortRanked_perm _).mem_iff.mp hr1
      have := scoreList_idx_lt q choices 0 r hr2
      omega
    rcases lookupAll_length docs (extract q choices limit) hidx with
      ⟨l, hl, hlen'⟩
    exact ⟨l, hl, by rw [hlen', hlen]⟩

/-- Witness for C3: ranking one candidate text against one document
succeeds with `min 5 1 = 1` result. -/
theorem rank_length_sorted_stable_witness :
    (["abc"] : List String).length ≤ ([docT] : List Document).length ∧
    ∃ l, recommend_documents "a" ["abc"] [docT] 5 = some l ∧
      l.length = min 5 (["abc"] : List String).length :=
  ⟨by decide,
    (rank_length_sorted_stable "a" ["abc"] [docT] 5).2.2.2.2 (by decide)⟩

/-- C4: the similarity score lies in [0, 100] and equals 100 exactly
when the lowercased query occurs as a literal (contiguous) substring of
the lowercased text. -/
theorem score_bounds_substring (q t : String) :
    0 ≤ partialRatioScore q t ∧ partialRatioScore q t ≤ 100 ∧
    (partialRatioScore q t = 100 ↔ lowerChars q <:+: lowerChars t) := by
  refine ⟨Nat.zero_le _, ?_, ?_⟩ <;> unfold partialRatioScore <;>
    by_cases h : lowerChars q <:+: lowerChars t
  · rw [if_pos h]
  · rw [if_neg h]
    have := Nat.min_le_left 99
      (100 * bestWindow (lowerChars q) (lowerChars t) /
        max 1 (lowerChars q).length)
    omega
  · rw [if_pos h]
    exact ⟨fun _ => h, fun _ => rfl⟩
  · rw [if_neg h]
    constructor
    · intro hc
      have := Nat.min_le_left 99
        (100 * bestWindow (lowerChars q) (lowerChars t) /
          max 1 (lowerChars q).length)
      omega
    · intro hc
      exact absurd hc h

theorem stableRanking_sortRanked (q : String) (choices : List String) :
    stableRanking q choices (sortRanked (scoreList q choices 0)) :=
  ⟨sortRanked_perm _, sortRanked_pairwise _ (scoreList_pairwise_idx q choices 0)⟩

theorem stableRanking_unique (q : String) (choices : List String)
    (l₁ l₂ : List (String × Nat × Nat))
    (h₁ : stableRanking q choices l₁) (h₂ : stableRanking q choices l₂) :
    l₁ = l₂ :=
  List.eq_of_perm_of_sorted (h₁.1.trans h₂.1.symm) h₁.2 h₂.2

/-- C10: the end-to-end search is deterministic: for a fixed corpus
snapshot, predicate set and query there is exactly one stable ranking of
the filtered candidates (descending score, ties by original candidate
order), and the search result is the document lookup of its
`limit`-prefix — so two invocations agree. -/
theorem search_deterministic (docs : List Document) (p : PredicateSet)
    (q : String) (limit : Nat) (l₁ l₂ : List (String × Nat × Nat))
    (h₁ : stableRanking q (corpus_filtered docs p) l₁)
    (h₂ : stableRanking q (corpus_filtered docs p) l₂) :
    l₁ = l₂ ∧ (q ≠ "" → search docs p q limit =
      lookupAll (filtered_documents docs p) (l₁.take limit)) := by
  refine ⟨stableRanking_unique q _ l₁ l₂ h₁ h₂, fun hq => ?_⟩
  have hl₁ : l₁ = sortRanked (scoreList q (corpus_filtered docs p) 0) :=
    stableRanking_unique q _ l₁ _ h₁ (stableRanking_sortRanked q _)
  rw [search, if_neg hq, recommend_documents, extract, hl₁]

/-- Witness for C10 at a concrete corpus of one document. -/
theorem search_deterministic_witness :
    stableRanking "a" (corpus_filtered [docT] allPredicates)
      [("abc  ", 100, 0)] ∧
    (([("abc  ", 100, 0)] : List (String × Nat × Nat)) =
        [("abc  ", 100, 0)] ∧
      (("a" : String) ≠ "" → search [docT] allPredicates "a" 5 =
        lookupAll (filtered_documents [docT] allPredicates)
          (([("abc  ", 100, 0)] : List (String × Nat × Nat)).take 5))) := by
  have hs : scoreList "a" (corpus_filtered [docT] allPredicates) 0 =
      [("abc  ", 100, 0)] := by decide
  have hw : stableRanking "a" (corpus_filtered [docT] allPredicates)
      [("abc  ", 100, 0)] := by
    refine ⟨?_, by simp⟩
    rw [hs]
  exact ⟨hw, search_deterministic [docT] allPredicates "a" 5 _ _ hw hw⟩

end CourseRec
